import Mathlib

/-!
Shallow embedding of `check_activity.py`: the selection-and-timed-dispatch
pipeline (activity diffing, blacklist-aware ranking, random winner
selection, collision-avoiding time-slot assignment, sequential
wait-then-send dispatch), together with proofs of the spec claims.

Randomness (`random.randint`, `random.sample`), the wall clock and the
delivery outcomes are modelled as explicit functional parameters; file
contents are modelled as values.
-/

/-- One entry of the level roster: an item `{name, level}` as produced by
`fetch_levels` and stored in the snapshot file. -/
structure LevelEntry where
  name : String
  level : Int
deriving Repr, DecidableEq

/-- A raw JSON object as read from the snapshot file or from the fetcher
output: either field may be missing (`item.get` returning `None`). -/
structure JsonEntry where
  name : Option String
  level : Option Int
deriving Repr, DecidableEq

/-- An activity record `{name, from, to, delta}` as built by
`get_active_players` (the Python field `from` is `fromLevel` here). -/
structure ActivePlayer where
  name : String
  fromLevel : Int
  toLevel : Int
  delta : Int
deriving Repr, DecidableEq

/-- The loop body of `get_active_players`: walk `current_levels`, look each
name up in the previous dict, skip absent names, and emit a record exactly
when the level strictly increased. -/
def activeLoop (prev : String → Option Int) : List LevelEntry → List ActivePlayer
  | [] => []
  | m :: rest =>
    match prev m.name with
    | none => activeLoop prev rest
    | some lvl_prev =>
      if m.level > lvl_prev then
        ⟨m.name, lvl_prev, m.level, m.level - lvl_prev⟩ :: activeLoop prev rest
      else
        activeLoop prev rest

/-- Embedding of `get_active_players(prev_levels, current_levels)`: `prev_levels` is the
dict from the last snapshot (`None` on the first run, embedded as a partial
map `String → Option Int`). -/
def get_active_players (prev_levels : Option (String → Option Int))
    (current_levels : List LevelEntry) : List ActivePlayer :=
  match prev_levels with
  | none => []
  | some prev => activeLoop prev current_levels

/-- The sort order of `sorted(filtered, key=lambda x, reverse=True)`:
delta descending. Python `sorted` is stable; `List.insertionSort` is the
stable sort used to embed it. -/
def deltaDesc (a b : ActivePlayer) : Prop := b.delta ≤ a.delta

instance : DecidableRel deltaDesc :=
  fun a b => inferInstanceAs (Decidable (b.delta ≤ a.delta))

instance : IsTotal ActivePlayer deltaDesc := ⟨fun a b => le_total b.delta a.delta⟩

instance : IsTrans ActivePlayer deltaDesc := ⟨fun _ _ _ h1 h2 => le_trans h2 h1⟩

/-- Embedding of `choose_winner_pool(active_players, blacklist, pool_size)`: drop
blacklisted names, stable-sort by `delta` descending, and truncate to
`pool_size`. -/
def choose_winner_pool (active_players : List ActivePlayer)
    (blacklist : String → Bool) (pool_size : Nat) : List ActivePlayer :=
  let filtered := active_players.filter (fun p => !blacklist p.name)
  if filtered.isEmpty then
    []
  else
    let filtered_sorted := filtered.insertionSort deltaDesc
    filtered_sorted.take pool_size

/-- Draw-without-replacement loop embedding `random.sample(candidates, k=n)`:
each step consumes one value of the stream `rand`, reduces it modulo the
remaining pool size to select a position, removes that position and
recurses. Any without-replacement sample is an instance of this scheme for
a suitable stream. -/
def sampleLoop (rand : Nat → Nat) : Nat → Nat → List ActivePlayer → List ActivePlayer
  | 0, _, _ => []
  | _ + 1, _, [] => []
  | n + 1, k, x :: xs =>
    let i := rand k % (x :: xs).length
    (x :: xs).get ⟨i, Nat.mod_lt _ (Nat.succ_pos _)⟩ ::
      sampleLoop rand n (k + 1) ((x :: xs).eraseIdx i)

/-- Embedding of `pick_winners(candidates, count)`: empty input gives an empty draw;
otherwise sample `min(count, len(candidates))` distinct positions without
replacement. -/
def pick_winners (rand : Nat → Nat) (candidates : List ActivePlayer)
    (count : Nat) : List ActivePlayer :=
  if candidates.isEmpty then
    []
  else
    sampleLoop rand (min count candidates.length) 0 candidates

/-- A winner with an assigned dispatch time, `{name, from, to, delta,
time}`. The spec data model calls the minute offset `timeOfDay`; `minutes`
is that offset and `time` is the `HH:MM` string the source formats from it
(`divmod(minutes, 60)` plus zero padding). -/
structure TimedPlayer where
  name : String
  fromLevel : Int
  toLevel : Int
  delta : Int
  minutes : Nat
  time : String
deriving Repr, DecidableEq

/-- Zero padding of `f-string 02d`: two digits minimum. -/
def fmt2 (n : Nat) : String :=
  (if n < 10 then "0" else "") ++ toString n

/-- The `HH:MM` string built from a minute-of-day value. -/
def fmtTime (minutes : Nat) : String :=
  fmt2 (minutes / 60) ++ ":" ++ fmt2 (minutes % 60)

/-- The gap test of the placement loop: `all(abs(candidate - item) >=
min_gap_minutes for item in assigned)`. -/
def gapOK (min_gap_minutes : Nat) (assigned : List (Nat × ActivePlayer))
    (candidate : Nat) : Bool :=
  assigned.all fun item =>
    decide (min_gap_minutes ≤ ((candidate : Int) - (item.1 : Int)).natAbs)

/-- The inner `for _ in range(1000)` retry loop of `assign_random_times`:
draw `rand lo hi k` (the k-th result of `random.randint(lo, hi)` in this
run), accept it when it keeps the minimum gap to every accepted time, give
up after the attempt budget is spent. Returns the accepted minute and the
next draw index. -/
def tryPlace (rand : Nat → Nat → Nat → Nat) (lo hi min_gap_minutes : Nat)
    (assigned : List (Nat × ActivePlayer)) : Nat → Nat → Option (Nat × Nat)
  | _, 0 => none
  | k, fuel + 1 =>
    let candidate := rand lo hi k
    if gapOK min_gap_minutes assigned candidate then
      some (candidate, k + 1)
    else
      tryPlace rand lo hi min_gap_minutes assigned (k + 1) fuel

/-- The outer loop of `assign_random_times`: place each winner in turn;
the `for/else` break abandons the current winner and all later ones and
marks the run with the warning flag. -/
def placeLoop (rand : Nat → Nat → Nat → Nat) (lo hi min_gap_minutes : Nat) :
    List ActivePlayer → Nat → List (Nat × ActivePlayer) →
      List (Nat × ActivePlayer) × Bool
  | [], _, assigned => (assigned, false)
  | player :: rest, k, assigned =>
    match tryPlace rand lo hi min_gap_minutes assigned k 1000 with
    | some (c, k1) => placeLoop rand lo hi min_gap_minutes rest k1 (assigned ++ [(c, player)])
    | none => (assigned, true)

/-- The sort order of `assigned.sort(key=lambda x, x.minutes)`. -/
def minuteLE (x y : Nat × ActivePlayer) : Prop := x.1 ≤ y.1

instance : DecidableRel minuteLE :=
  fun x y => inferInstanceAs (Decidable (x.1 ≤ y.1))

instance : IsTotal (Nat × ActivePlayer) minuteLE := ⟨fun x y => Nat.le_total x.1 y.1⟩

instance : IsTrans (Nat × ActivePlayer) minuteLE := ⟨fun _ _ _ => Nat.le_trans⟩

/-- Embedding of `assign_random_times(winners, start_hour, end_hour, min_gap_minutes)`.
`rand lo hi k` stands for the k-th `random.randint(lo, hi)` draw of the
run. Returns the assignments together with the warning flag of the
`[WARN]` branch (placement incomplete). -/
def assign_random_times (rand : Nat → Nat → Nat → Nat) (winners : List ActivePlayer)
    (start_hour end_hour min_gap_minutes : Nat) : List TimedPlayer × Bool :=
  if winners.isEmpty then
    ([], false)
  else
    let start_min := start_hour * 60
    let end_min := end_hour * 60
    let placed := placeLoop rand start_min end_min min_gap_minutes winners 0 []
    let sortedA := placed.1.insertionSort minuteLE
    (sortedA.map fun item =>
      { name := item.2.name, fromLevel := item.2.fromLevel, toLevel := item.2.toLevel,
        delta := item.2.delta, minutes := item.1, time := fmtTime item.1 },
     placed.2)

/-- The raising behaviour of `assign_random_times`: Python
`random.randint(a, b)` raises ValueError when `a > b`. With a non-empty
winners list the placement loop calls `randint(start_min, end_min)` on
its very first attempt, before anything is returned, so an empty window
(`end_min < start_min`) makes the call raise and the function produce no
result at all (`none`); with an empty winners list no draw happens, and
otherwise every draw succeeds and the normal result is returned. -/
def assign_random_times_run (rand : Nat → Nat → Nat → Nat) (winners : List ActivePlayer)
    (start_hour end_hour min_gap_minutes : Nat) : Option (List TimedPlayer × Bool) :=
  if winners.isEmpty then
    some ([], false)
  else if end_hour * 60 < start_hour * 60 then
    none
  else
    some (assign_random_times rand winners start_hour end_hour min_gap_minutes)

/-- Embedding of `hour, minute = map(int, a.time.split(":"))` followed by building the
send instant: the minute of day encoded by an `HH:MM` string. Malformed
strings (on which the source raises) default to 0. -/
def timeToMinutes (s : String) : Nat :=
  match s.splitOn ":" with
  | [h, m] => 60 * (h.toNat?.getD 0) + (m.toNat?.getD 0)
  | _ => 0

/-- One iteration of the dispatch loop, as observed in the trace: the
scheduled instant (seconds of day), the clock when the iteration started,
whether the loop slept, the recipient, and whether the send succeeded. -/
structure DispatchStep where
  schedSec : Int
  nowBefore : Int
  waited : Bool
  name : String
  sent : Bool
deriving Repr, DecidableEq

/-- The sort order of `schedule.sort(key=lambda x, x[0])`: ascending send
instant, i.e. ascending parsed minute of day. -/
def schedLE (a b : TimedPlayer) : Prop := timeToMinutes a.time ≤ timeToMinutes b.time

instance : DecidableRel schedLE :=
  fun a b => inferInstanceAs (Decidable (timeToMinutes a.time ≤ timeToMinutes b.time))

instance : IsTotal TimedPlayer schedLE :=
  ⟨fun a b => Nat.le_total (timeToMinutes a.time) (timeToMinutes b.time)⟩

instance : IsTrans TimedPlayer schedLE := ⟨fun _ _ _ => Nat.le_trans⟩

/-- The `for send_dt, a in schedule` loop of `send_with_sleep`. The wall
clock is explicit: `now` is the current instant in seconds; `delay > 0`
sleeps until the scheduled instant, otherwise the send happens at once.
`sendDur i` is the real time the i-th delivery attempt takes and `ok i`
its outcome (`sf_mailer` exit status). -/
def dispatchLoop (sendDur : Nat → Nat) (ok : Nat → Bool) :
    List TimedPlayer → Nat → Int → List DispatchStep
  | [], _, _ => []
  | a :: rest, i, now =>
    let sched : Int := 60 * (timeToMinutes a.time : Int)
    let delay := sched - now
    let nowSend := if 0 < delay then sched else now
    { schedSec := sched, nowBefore := now, waited := decide (0 < delay),
      name := a.name, sent := ok i } ::
      dispatchLoop sendDur ok rest (i + 1) (nowSend + sendDur i)

/-- Embedding of `send_with_sleep(assignments)`: defensive re-sort by send instant,
then the sequential wait-then-send loop starting with the clock at
`startNow`. The returned trace records every delivery attempt in order. -/
def send_with_sleep (sendDur : Nat → Nat) (ok : Nat → Bool) (startNow : Int)
    (assignments : List TimedPlayer) : List DispatchStep :=
  if assignments.isEmpty then
    []
  else
    dispatchLoop sendDur ok (assignments.insertionSort schedLE) 0 startNow

/-- The set `sent_successfully` accumulated by `send_with_sleep`: the
names of the steps whose send succeeded. -/
def sentSuccessfully (steps : List DispatchStep) : List String :=
  (steps.filter fun s => s.sent).map fun s => s.name

/-- Insertion into the `prev` dict: `prev[name] = int(level)`. -/
def dictInsert (d : String → Option Int) (n : String) (v : Int) :
    String → Option Int :=
  fun s => if s = n then some v else d s

/-- The loop of `load_previous_levels`: walk the decoded JSON array, skip
items with a missing `name` or `level`, and build the dict (later items
overwrite earlier ones). -/
def loadLoop (acc : String → Option Int) : List JsonEntry → (String → Option Int)
  | [] => acc
  | item :: rest =>
    match item.name, item.level with
    | some n, some v => loadLoop (dictInsert acc n v) rest
    | _, _ => loadLoop acc rest

/-- Embedding of `load_previous_levels()`: `none` input models a missing snapshot file
(first run), in which case the function returns `None`; otherwise the dict
built from the decoded array. -/
def load_previous_levels (file : Option (List JsonEntry)) :
    Option (String → Option Int) :=
  match file with
  | none => none
  | some data => some (loadLoop (fun _ => none) data)

/-- Embedding of `save_today_levels(levels)`: the snapshot file content written by
`json.dump`, an array of objects with both fields present. -/
def save_today_levels (levels : List LevelEntry) : List JsonEntry :=
  levels.map fun e => { name := some e.name, level := some e.level }

/-- The observable behaviour of the external `sf_fetcher` invocation:
whether the binary exists, its exit code, and its stdout decoded as a JSON
array of objects (`none` when `json.loads` fails). -/
structure FetchEnv where
  binaryExists : Bool
  exitCode : Int
  stdoutJson : Option (List JsonEntry)

/-- The parse loop of `fetch_levels`: keep items having both `name` and
`level`, coerce `level` with `int(...)`. -/
def parseLevels : List JsonEntry → List LevelEntry
  | [] => []
  | item :: rest =>
    match item.name, item.level with
    | some n, some v => { name := n, level := v } :: parseLevels rest
    | _, _ => parseLevels rest

/-- Embedding of `fetch_levels()`: raises (`Except.error`) when the binary is missing,
when it exits non-zero, or when its output is not decodable JSON;
otherwise returns the parsed roster. -/
def fetch_levels (env : FetchEnv) : Except String (List LevelEntry) :=
  if !env.binaryExists then
    Except.error "missing binary"
  else if env.exitCode ≠ 0 then
    Except.error "nonzero exit"
  else
    match env.stdoutJson with
    | none => Except.error "undecodable output"
    | some data => Except.ok (parseLevels data)

/-- The persisted state of the pipeline: the snapshot file and the
blacklist file. -/
structure Store where
  snapshot : Option (List JsonEntry)
  blacklist : List String
deriving Repr

/-- Modelled from the spec: the run sequencing (fetch, diff against the
loaded snapshot, pool selection, draw, slot assignment, dispatch, then
persisting the new snapshot) is described in the spec data-flow but is not
present in `src/` (the scripts `main` is a hardcoded manual test), so it
is assembled here from the spec with the source functions as stages.
Returns the resulting persisted state and whether the run aborted on a
fetch error. The blacklist is left unchanged, as the source never updates
it after a send. -/
def runPipeline (env : FetchEnv) (randSample : Nat → Nat)
    (randSlot : Nat → Nat → Nat → Nat) (sendDur : Nat → Nat) (ok : Nat → Bool)
    (startNow : Int) (store : Store) : Store × Bool :=
  match fetch_levels env with
  | Except.error _ => (store, true)
  | Except.ok levels =>
    let prev := load_previous_levels store.snapshot
    let active := get_active_players prev levels
    let pool := choose_winner_pool active (fun n => store.blacklist.contains n) 50
    let winners := pick_winners randSample pool 10
    let assignments := (assign_random_times randSlot winners 12 17 10).1
    let _sent := sentSuccessfully (send_with_sleep sendDur ok startNow assignments)
    ({ snapshot := some (save_today_levels levels), blacklist := store.blacklist }, false)

lemma activeLoop_mem {f : String → Option Int} {cur : List LevelEntry} {r : ActivePlayer}
    (h : r ∈ activeLoop f cur) :
    f r.name = some r.fromLevel ∧ r.delta = r.toLevel - r.fromLevel ∧
      r.fromLevel < r.toLevel ∧ LevelEntry.mk r.name r.toLevel ∈ cur := by
  induction cur with
  | nil => simp [activeLoop] at h
  | cons m rest ih =>
    simp only [activeLoop] at h
    split at h
    · rcases ih h with ⟨h1, h2, h3, h4⟩
      exact ⟨h1, h2, h3, List.mem_cons_of_mem _ h4⟩
    · rename_i lvl_prev hp
      split at h
      · rename_i hlt
        rcases List.mem_cons.mp h with hr | hr
        · subst hr
          exact ⟨hp, rfl, hlt, List.mem_cons_self _ _⟩
        · rcases ih hr with ⟨h1, h2, h3, h4⟩
          exact ⟨h1, h2, h3, List.mem_cons_of_mem _ h4⟩
      · rcases ih h with ⟨h1, h2, h3, h4⟩
        exact ⟨h1, h2, h3, List.mem_cons_of_mem _ h4⟩

lemma activeLoop_emits {f : String → Option Int} {cur : List LevelEntry}
    {m : LevelEntry} (hm : m ∈ cur) {p : Int} (hp : f m.name = some p)
    (hlt : p < m.level) :
    ActivePlayer.mk m.name p m.level (m.level - p) ∈ activeLoop f cur := by
  induction cur with
  | nil => cases hm
  | cons x rest ih =>
    rcases List.mem_cons.mp hm with hx | hx
    · subst hx
      simp only [activeLoop, hp, if_pos hlt]
      exact List.mem_cons_self _ _
    · simp only [activeLoop]
      split
      · exact ih hx
      · split
        · exact List.mem_cons_of_mem _ (ih hx)
        · exact ih hx

/-- C3: on a first run (no previous snapshot) the diff is empty; every
emitted record has its name present in the previous snapshot with the
recorded previous level, satisfies delta = toLevel - fromLevel > 0 and
corresponds to a current entry; and a record for a current entry is
emitted exactly when the current level strictly exceeds the previous
level for that name. -/
theorem get_active_players_spec (f : String → Option Int) (current : List LevelEntry) :
    get_active_players none current = [] ∧
    (∀ r ∈ get_active_players (some f) current,
      f r.name = some r.fromLevel ∧ r.delta = r.toLevel - r.fromLevel ∧ 0 < r.delta ∧
        LevelEntry.mk r.name r.toLevel ∈ current) ∧
    (∀ m ∈ current, ∀ p : Int, f m.name = some p →
      (p < m.level ↔
        ActivePlayer.mk m.name p m.level (m.level - p) ∈ get_active_players (some f) current)) := by
  refine ⟨rfl, ?_, ?_⟩
  · intro r hr
    rcases activeLoop_mem hr with ⟨h1, h2, h3, h4⟩
    exact ⟨h1, h2, by omega, h4⟩
  · intro m _hm p hp
    constructor
    · intro hlt
      exact activeLoop_emits _hm hp hlt
    · intro hmem
      rcases activeLoop_mem hmem with ⟨_, _, h3, _⟩
      exact h3

/-- Witness for C3 at the roster of spec Example 1. -/
theorem get_active_players_spec_witness :
    get_active_players none [⟨"A", 7⟩, ⟨"B", 10⟩, ⟨"C", 1⟩] = [] ∧
    (∀ r ∈ get_active_players
        (some fun n => if n = "A" then some 5 else if n = "B" then some 10 else none)
        [⟨"A", 7⟩, ⟨"B", 10⟩, ⟨"C", 1⟩],
      (fun n => if n = "A" then some 5 else if n = "B" then some 10 else none) r.name =
          some r.fromLevel ∧
        r.delta = r.toLevel - r.fromLevel ∧ 0 < r.delta ∧
        LevelEntry.mk r.name r.toLevel ∈ [⟨"A", 7⟩, ⟨"B", 10⟩, ⟨"C", 1⟩]) ∧
    (∀ m ∈ ([⟨"A", 7⟩, ⟨"B", 10⟩, ⟨"C", 1⟩] : List LevelEntry), ∀ p : Int,
      (fun n => if n = "A" then some 5 else if n = "B" then some 10 else none) m.name = some p →
      (p < m.level ↔
        ActivePlayer.mk m.name p m.level (m.level - p) ∈ get_active_players
          (some fun n => if n = "A" then some 5 else if n = "B" then some 10 else none)
          [⟨"A", 7⟩, ⟨"B", 10⟩, ⟨"C", 1⟩])) :=
  get_active_players_spec _ _

lemma pairwise_deltaDesc_filter (l : List ActivePlayer) (d : Int) :
    (l.filter fun r => r.delta == d).Pairwise deltaDesc := by
  apply List.pairwise_of_forall_mem_list
  intro a ha b hb
  rcases List.mem_filter.mp ha with ⟨-, ha2⟩
  rcases List.mem_filter.mp hb with ⟨-, hb2⟩
  have ha3 : a.delta = d := by simpa using ha2
  have hb3 : b.delta = d := by simpa using hb2
  show b.delta ≤ a.delta
  omega

lemma filter_insertionSort_deltaDesc (l : List ActivePlayer) (d : Int) :
    ((l.insertionSort deltaDesc).filter fun r => r.delta == d) =
      l.filter fun r => r.delta == d := by
  have hsub : List.Sublist (l.filter fun r => r.delta == d) (l.insertionSort deltaDesc) :=
    List.sublist_insertionSort (pairwise_deltaDesc_filter l d) (List.filter_sublist l)
  have hsub2 := hsub.filter (fun r => r.delta == d)
  rw [List.filter_filter] at hsub2
  simp only [Bool.and_self] at hsub2
  have hperm : List.Perm ((l.insertionSort deltaDesc).filter fun r => r.delta == d)
      (l.filter fun r => r.delta == d) :=
    (List.perm_insertionSort deltaDesc l).filter _
  exact (hsub2.eq_of_length hperm.length_eq.symm).symm

lemma filter_take_eq {α : Type} (p : α → Bool) :
    ∀ (l : List α) (n : Nat),
      (l.take n).filter p = (l.filter p).take ((l.take n).filter p).length := by
  intro l
  induction l with
  | nil => intro n; simp
  | cons x xs ih =>
    intro n
    cases n with
    | zero => simp
    | succ n =>
      simp only [List.take_succ_cons, List.filter_cons]
      by_cases hx : p x
      · simp only [hx, if_pos, List.length_cons, List.take_succ_cons]
        rw [ih n]
        congr 1
        rw [List.length_take, ← List.take_take, List.take_length]
      · simp only [hx, Bool.false_eq_true, if_neg, not_false_iff]
        exact ih n

lemma take_len_take {α : Type} (l : List α) (k : Nat) :
    l.take ((l.take k).length) = l.take k := by
  rw [List.length_take, ← List.take_take, List.take_length]

/-- C4: the winner pool contains no blacklisted name, is sorted by delta
descending with ties in input order (stable sort), and its length is
poolSize capped by the size of the blacklist-filtered input. -/
theorem choose_winner_pool_spec (active : List ActivePlayer)
    (blacklist : String → Bool) (pool_size : Nat) :
    (∀ r ∈ choose_winner_pool active blacklist pool_size, blacklist r.name = false) ∧
    (choose_winner_pool active blacklist pool_size).Pairwise
      (fun a b => b.delta ≤ a.delta) ∧
    (choose_winner_pool active blacklist pool_size).length =
      min pool_size (active.filter fun p => !blacklist p.name).length ∧
    (∀ d : Int,
      (choose_winner_pool active blacklist pool_size).filter (fun r => r.delta == d) =
        ((active.filter fun p => !blacklist p.name).filter fun r => r.delta == d).take
          ((choose_winner_pool active blacklist pool_size).filter
            (fun r => r.delta == d)).length) := by
  unfold choose_winner_pool
  by_cases hempty : (active.filter fun p => !blacklist p.name).isEmpty
  · rw [List.isEmpty_iff] at hempty
    simp [hempty]
  · rw [if_neg (by simpa using hempty)]
    simp only []
    refine ⟨?_, ?_, ?_, ?_⟩
    · intro r hr
      have hr2 : r ∈ (active.filter fun p => !blacklist p.name).insertionSort deltaDesc :=
        List.mem_of_mem_take hr
      rw [List.mem_insertionSort] at hr2
      have := (List.mem_filter.mp hr2).2
      simpa using this
    · have hp : ((active.filter fun p => !blacklist p.name).insertionSort deltaDesc).Pairwise
          deltaDesc := List.sorted_insertionSort deltaDesc _
      exact (List.Pairwise.sublist (List.take_sublist _ _) hp).imp (fun h => h)
    · rw [List.length_take, List.length_insertionSort]
    · intro d
      rw [filter_take_eq, filter_insertionSort_deltaDesc, take_len_take]

/-- Witness for C4 on a concrete roster with a tie and a blacklisted name. -/
theorem choose_winner_pool_spec_witness :
    (∀ r ∈ choose_winner_pool
        [⟨"A", 0, 1, 1⟩, ⟨"B", 0, 3, 3⟩, ⟨"C", 0, 3, 3⟩, ⟨"D", 0, 2, 2⟩]
        (fun n => n == "D") 2,
      (fun n => n == "D") r.name = false) ∧
    (choose_winner_pool
        [⟨"A", 0, 1, 1⟩, ⟨"B", 0, 3, 3⟩, ⟨"C", 0, 3, 3⟩, ⟨"D", 0, 2, 2⟩]
        (fun n => n == "D") 2).Pairwise (fun a b => b.delta ≤ a.delta) ∧
    (choose_winner_pool
        [⟨"A", 0, 1, 1⟩, ⟨"B", 0, 3, 3⟩, ⟨"C", 0, 3, 3⟩, ⟨"D", 0, 2, 2⟩]
        (fun n => n == "D") 2).length =
      min 2 (([⟨"A", 0, 1, 1⟩, ⟨"B", 0, 3, 3⟩, ⟨"C", 0, 3, 3⟩, ⟨"D", 0, 2, 2⟩] :
        List ActivePlayer).filter fun p => !(fun n => n == "D") p.name).length ∧
    (∀ d : Int,
      (choose_winner_pool
          [⟨"A", 0, 1, 1⟩, ⟨"B", 0, 3, 3⟩, ⟨"C", 0, 3, 3⟩, ⟨"D", 0, 2, 2⟩]
          (fun n => n == "D") 2).filter (fun r => r.delta == d) =
        ((([⟨"A", 0, 1, 1⟩, ⟨"B", 0, 3, 3⟩, ⟨"C", 0, 3, 3⟩, ⟨"D", 0, 2, 2⟩] :
            List ActivePlayer).filter fun p => !(fun n => n == "D") p.name).filter
          (fun r => r.delta == d)).take
          ((choose_winner_pool
              [⟨"A", 0, 1, 1⟩, ⟨"B", 0, 3, 3⟩, ⟨"C", 0, 3, 3⟩, ⟨"D", 0, 2, 2⟩]
              (fun n => n == "D") 2).filter (fun r => r.delta == d)).length) :=
  choose_winner_pool_spec _ _ _

lemma loadLoop_save (levels : List LevelEntry) :
    ∀ (acc : String → Option Int) (nm : String),
      loadLoop acc (save_today_levels levels) nm =
        match levels.reverse.find? (fun e => e.name == nm) with
        | some e => some e.level
        | none => acc nm := by
  induction levels with
  | nil => intro acc nm; rfl
  | cons e rest ih =>
    intro acc nm
    show loadLoop (dictInsert acc e.name e.level) (save_today_levels rest) nm = _
    rw [ih]
    simp only [List.reverse_cons, List.find?_append]
    cases hfind : rest.reverse.find? (fun x => x.name == nm) with
    | some x => simp [hfind, Option.or]
    | none =>
      simp only [hfind, Option.none_or]
      show dictInsert acc e.name e.level nm = _
      unfold dictInsert
      by_cases hnm : e.name == nm
      · rw [List.find?_cons_of_pos (p := fun x : LevelEntry => x.name == nm) [] hnm]
        have hq : e.name = nm := beq_iff_eq.mp hnm
        rw [if_pos hq.symm]
      · rw [List.find?_cons_of_neg (p := fun x : LevelEntry => x.name == nm) [] hnm]
        have hq : ¬nm = e.name := fun h => hnm (by simp [h])
        rw [if_neg hq]
        rfl

/-- C8: saving a snapshot and loading it back yields exactly the name to
level mapping induced by the snapshot list (for a repeated name, the last
entry wins, as when building a dict from the list). -/
theorem snapshot_round_trip (levels : List LevelEntry) :
    load_previous_levels (some (save_today_levels levels)) =
      some (fun nm => (levels.reverse.find? fun e => e.name == nm).map fun e => e.level) := by
  show some _ = some _
  congr 1
  funext nm
  rw [show loadLoop (fun _ => none) (save_today_levels levels) nm = _ from loadLoop_save levels _ nm]
  cases levels.reverse.find? (fun e => e.name == nm) <;> rfl

/-- Witness for C8 on a snapshot with a repeated name. -/
theorem snapshot_round_trip_witness :
    load_previous_levels (some (save_today_levels [⟨"A", 3⟩, ⟨"B", 5⟩, ⟨"A", 7⟩])) =
      some (fun nm =>
        (([⟨"A", 3⟩, ⟨"B", 5⟩, ⟨"A", 7⟩] : List LevelEntry).reverse.find?
          fun e => e.name == nm).map fun e => e.level) :=
  snapshot_round_trip _

lemma get_cons_eraseIdx_perm {α : Type} :
    ∀ (l : List α) (i : Nat) (h : i < l.length),
      List.Perm (l.get ⟨i, h⟩ :: l.eraseIdx i) l := by
  intro l
  induction l with
  | nil => intro i h; cases h
  | cons x xs ih =>
    intro i h
    cases i with
    | zero => exact List.Perm.refl _
    | succ i =>
      have hi : i < xs.length := by simpa using h
      exact ((List.Perm.swap x (xs.get ⟨i, hi⟩) _).trans
        (List.Perm.cons x (ih i hi)))

lemma sampleLoop_length (rand : Nat → Nat) :
    ∀ (n k : Nat) (pool : List ActivePlayer), n ≤ pool.length →
      (sampleLoop rand n k pool).length = n := by
  intro n
  induction n with
  | zero => intro k pool _; rfl
  | succ n ih =>
    intro k pool h
    match pool with
    | [] => simp at h
    | x :: xs =>
      have hi : rand k % (x :: xs).length < (x :: xs).length :=
        Nat.mod_lt _ (Nat.succ_pos _)
      show (_ :: sampleLoop rand n (k + 1) _).length = n + 1
      rw [List.length_cons, ih (k + 1) _ ?_]
      rw [List.length_eraseIdx_of_lt hi]
      simp only [List.length_cons] at h ⊢
      omega

lemma sampleLoop_subperm (rand : Nat → Nat) :
    ∀ (n k : Nat) (pool : List ActivePlayer),
      List.Subperm (sampleLoop rand n k pool) pool := by
  intro n
  induction n with
  | zero => intro k pool; exact List.nil_subperm
  | succ n ih =>
    intro k pool
    match pool with
    | [] => exact List.nil_subperm
    | x :: xs =>
      have hi : rand k % (x :: xs).length < (x :: xs).length :=
        Nat.mod_lt _ (Nat.succ_pos _)
      show List.Subperm ((x :: xs).get _ :: sampleLoop rand n (k + 1) _) _
      obtain ⟨u, hup, hus⟩ := ih (k + 1) ((x :: xs).eraseIdx (rand k % (x :: xs).length))
      have h2 : List.Subperm
          ((x :: xs).get ⟨rand k % (x :: xs).length, hi⟩ ::
            sampleLoop rand n (k + 1) ((x :: xs).eraseIdx (rand k % (x :: xs).length)))
          ((x :: xs).get ⟨rand k % (x :: xs).length, hi⟩ ::
            (x :: xs).eraseIdx (rand k % (x :: xs).length)) :=
        ⟨_ :: u, hup.cons _, hus.cons₂ _⟩
      exact h2.trans (get_cons_eraseIdx_perm _ _ hi).subperm

lemma subperm_map {α β : Type} (f : α → β) {l₁ l₂ : List α}
    (h : List.Subperm l₁ l₂) : List.Subperm (l₁.map f) (l₂.map f) := by
  obtain ⟨u, hup, hus⟩ := h
  exact ⟨u.map f, hup.map f, hus.map f⟩

lemma pick_winners_subperm (rand : Nat → Nat) (candidates : List ActivePlayer)
    (count : Nat) : List.Subperm (pick_winners rand candidates count) candidates := by
  unfold pick_winners
  by_cases h : candidates.isEmpty
  · rw [if_pos h]; exact List.nil_subperm
  · rw [if_neg h]; exact sampleLoop_subperm rand _ 0 _

/-- C5 (amended): an empty candidate list yields an empty draw; otherwise
the draw has size exactly min(count, number of candidates) and is a
sub-multiset of the candidates (without replacement, no position
repeated); names in the draw are distinct whenever the candidate names
are distinct. -/
theorem pick_winners_spec (rand : Nat → Nat) (candidates : List ActivePlayer)
    (count : Nat) :
    (candidates = [] → pick_winners rand candidates count = []) ∧
    (pick_winners rand candidates count).length = min count candidates.length ∧
    List.Subperm (pick_winners rand candidates count) candidates ∧
    ((candidates.map fun r => r.name).Nodup →
      ((pick_winners rand candidates count).map fun r => r.name).Nodup) := by
  refine ⟨?_, ?_, pick_winners_subperm rand candidates count, ?_⟩
  · intro h; subst h; rfl
  · unfold pick_winners
    by_cases h : candidates.isEmpty
    · rw [if_pos h]; rw [List.isEmpty_iff] at h; subst h; simp
    · rw [if_neg h]
      exact sampleLoop_length rand _ 0 _ (Nat.min_le_right _ _)
  · intro hnodup
    obtain ⟨u, hup, hus⟩ :=
      subperm_map (fun r : ActivePlayer => r.name) (pick_winners_subperm rand candidates count)
    exact hup.nodup_iff.mp (List.Nodup.sublist hus hnodup)

/-- C5 counterexample: with two candidates sharing the name A and
count 2, the draw returned by `pick_winners` contains a duplicate name,
so the no-duplicate-names clause fails for candidate lists with repeated
names. -/
theorem pick_winners_dup_names :
    ¬ ((pick_winners (fun _ => 0) [⟨"A", 0, 1, 1⟩, ⟨"A", 0, 1, 1⟩] 2).map
        fun r => r.name).Nodup := by decide

/-- Witness for C5 on distinct candidate names. -/
theorem pick_winners_spec_witness :
    ((pick_winners (fun _ => 0)
        [⟨"A", 0, 1, 1⟩, ⟨"B", 0, 2, 2⟩, ⟨"C", 0, 3, 3⟩] 2).map
      fun r => r.name).Nodup :=
  (pick_winners_spec (fun _ => 0)
    [⟨"A", 0, 1, 1⟩, ⟨"B", 0, 2, 2⟩, ⟨"C", 0, 3, 3⟩] 2).2.2.2 (by decide)

lemma tryPlace_some {rand : Nat → Nat → Nat → Nat} {lo hi g : Nat}
    {assigned : List (Nat × ActivePlayer)} :
    ∀ {fuel k c k1 : Nat}, tryPlace rand lo hi g assigned k fuel = some (c, k1) →
      gapOK g assigned c = true ∧ ∃ j, c = rand lo hi j := by
  intro fuel
  induction fuel with
  | zero => intro k c k1 h; simp [tryPlace] at h
  | succ fuel ih =>
    intro k c k1 h
    simp only [tryPlace] at h
    split at h
    · rename_i hg
      rcases h with ⟨rfl, rfl⟩
      exact ⟨hg, k, rfl⟩
    · exact ih h

lemma placeLoop_sound (rand : Nat → Nat → Nat → Nat) (lo hi g : Nat) :
    ∀ (winners : List ActivePlayer) (k : Nat) (acc : List (Nat × ActivePlayer)),
      (∀ x ∈ acc, ∃ j, x.1 = rand lo hi j) →
      ((acc.map Prod.fst).Pairwise fun a b : Nat => g ≤ ((a : Int) - (b : Int)).natAbs) →
      (∀ x ∈ (placeLoop rand lo hi g winners k acc).1, ∃ j, x.1 = rand lo hi j) ∧
      (((placeLoop rand lo hi g winners k acc).1.map Prod.fst).Pairwise
        fun a b : Nat => g ≤ ((a : Int) - (b : Int)).natAbs) := by
  intro winners
  induction winners with
  | nil => intro k acc h1 h2; exact ⟨h1, h2⟩
  | cons p rest ih =>
    intro k acc h1 h2
    cases htp : tryPlace rand lo hi g acc k 1000 with
    | none => simp only [placeLoop, htp]; exact ⟨h1, h2⟩
    | some ck =>
      obtain ⟨c, k1⟩ := ck
      simp only [placeLoop, htp]
      rcases tryPlace_some htp with ⟨hgap, j0, hj0⟩
      apply ih
      · intro x hx
        rcases List.mem_append.mp hx with hx | hx
        · exact h1 x hx
        · rcases List.mem_singleton.mp hx with rfl
          exact ⟨j0, hj0⟩
      · rw [List.map_append, List.pairwise_append]
        refine ⟨h2, List.pairwise_singleton _ _, ?_⟩
        intro a ha b hb
        rcases List.mem_map.mp ha with ⟨x, hxmem, rfl⟩
        have hb2 : b = c := by simpa using hb
        rw [hb2]
        have hall := (List.all_eq_true.mp hgap) x hxmem
        have hcx : g ≤ ((c : Int) - (x.1 : Int)).natAbs := by simpa using hall
        omega

lemma placeLoop_players (rand : Nat → Nat → Nat → Nat) (lo hi g : Nat) :
    ∀ (winners : List ActivePlayer) (k : Nat) (acc : List (Nat × ActivePlayer)),
      ∃ j, j ≤ winners.length ∧
        (placeLoop rand lo hi g winners k acc).1.map Prod.snd =
          acc.map Prod.snd ++ winners.take j ∧
        ((placeLoop rand lo hi g winners k acc).2 = true ↔ j < winners.length) := by
  intro winners
  induction winners with
  | nil =>
    intro k acc
    exact ⟨0, le_rfl, by simp [placeLoop], by simp [placeLoop]⟩
  | cons p rest ih =>
    intro k acc
    cases htp : tryPlace rand lo hi g acc k 1000 with
    | none =>
      refine ⟨0, Nat.zero_le _, ?_, ?_⟩
      · simp [placeLoop, htp]
      · simp [placeLoop, htp]
    | some ck =>
      obtain ⟨c, k1⟩ := ck
      obtain ⟨j, hj, hmap, hwarn⟩ := ih k1 (acc ++ [(c, p)])
      refine ⟨j + 1, Nat.succ_le_succ hj, ?_, ?_⟩
      · simp only [placeLoop, htp]
        rw [hmap, List.map_append]
        simp [List.take_succ_cons]
      · simp only [placeLoop, htp]
        rw [hwarn]
        exact Iff.symm Nat.succ_lt_succ_iff

lemma placeLoop_length_mono (rand : Nat → Nat → Nat → Nat) (lo hi g : Nat) :
    ∀ (winners : List ActivePlayer) (k : Nat) (acc : List (Nat × ActivePlayer)),
      acc.length ≤ (placeLoop rand lo hi g winners k acc).1.length := by
  intro winners
  induction winners with
  | nil => intro k acc; exact le_rfl
  | cons p rest ih =>
    intro k acc
    cases htp : tryPlace rand lo hi g acc k 1000 with
    | none => simp [placeLoop, htp]
    | some ck =>
      obtain ⟨c, k1⟩ := ck
      simp only [placeLoop, htp]
      calc acc.length ≤ (acc ++ [(c, p)]).length := by simp
        _ ≤ _ := ih k1 (acc ++ [(c, p)])

lemma assign_random_times_eq (rand : Nat → Nat → Nat → Nat)
    (winners : List ActivePlayer) (sh eh g : Nat) (h : ¬winners.isEmpty = true) :
    assign_random_times rand winners sh eh g =
      (((placeLoop rand (sh * 60) (eh * 60) g winners 0 []).1.insertionSort
          minuteLE).map
        (fun item =>
          { name := item.2.name, fromLevel := item.2.fromLevel, toLevel := item.2.toLevel,
            delta := item.2.delta, minutes := item.1, time := fmtTime item.1 }),
       (placeLoop rand (sh * 60) (eh * 60) g winners 0 []).2) := by
  unfold assign_random_times
  rw [if_neg h]

/-- C1: under the `randint` contract (each draw lies between startMinute
and endMinute), every returned assignment has its minute inside the
window, any two returned assignments are at least minGapMinutes apart,
and the returned sequence is sorted ascending by assigned minute, for
every input order of the winners. -/
theorem assign_random_times_spec (rand : Nat → Nat → Nat → Nat)
    (winners : List ActivePlayer) (start_hour end_hour min_gap_minutes : Nat)
    (hrand : ∀ k, start_hour * 60 ≤ rand (start_hour * 60) (end_hour * 60) k ∧
      rand (start_hour * 60) (end_hour * 60) k ≤ end_hour * 60) :
    (∀ r ∈ (assign_random_times rand winners start_hour end_hour min_gap_minutes).1,
      start_hour * 60 ≤ r.minutes ∧ r.minutes ≤ end_hour * 60) ∧
    (assign_random_times rand winners start_hour end_hour min_gap_minutes).1.Pairwise
      (fun a b => min_gap_minutes ≤ ((a.minutes : Int) - (b.minutes : Int)).natAbs) ∧
    (assign_random_times rand winners start_hour end_hour min_gap_minutes).1.Pairwise
      (fun a b => a.minutes ≤ b.minutes) := by
  by_cases hw : winners.isEmpty
  · unfold assign_random_times
    rw [if_pos hw]
    simp
  · rw [assign_random_times_eq rand winners _ _ _ hw]
    have hsound := placeLoop_sound rand (start_hour * 60) (end_hour * 60) min_gap_minutes
      winners 0 [] (by simp) (by simp)
    have hperm := List.perm_insertionSort minuteLE
      (placeLoop rand (start_hour * 60) (end_hour * 60) min_gap_minutes winners 0 []).1
    refine ⟨?_, ?_, ?_⟩
    · intro r hr
      rcases List.mem_map.mp hr with ⟨item, hitem, rfl⟩
      have hmem : item ∈ (placeLoop rand (start_hour * 60) (end_hour * 60)
          min_gap_minutes winners 0 []).1 := hperm.mem_iff.mp hitem
      rcases hsound.1 item hmem with ⟨j, hj⟩
      show start_hour * 60 ≤ item.1 ∧ item.1 ≤ end_hour * 60
      rw [hj]
      exact hrand j
    · have hpw := List.pairwise_map.mp hsound.2
      have hsym : ∀ {x y : Nat × ActivePlayer},
          (fun u v : Nat × ActivePlayer =>
            min_gap_minutes ≤ ((u.1 : Int) - (v.1 : Int)).natAbs) x y →
          (fun u v : Nat × ActivePlayer =>
            min_gap_minutes ≤ ((u.1 : Int) - (v.1 : Int)).natAbs) y x := by
        intro x y hxy
        simp only at hxy ⊢
        omega
      have hpw2 := (hperm.pairwise_iff hsym).mpr hpw
      exact List.pairwise_map.mpr hpw2
    · have hsorted := List.sorted_insertionSort minuteLE
        (placeLoop rand (start_hour * 60) (end_hour * 60) min_gap_minutes winners 0 []).1
      exact List.pairwise_map.mpr hsorted

/-- Witness for C1: the constant low draw on one winner in the default
window. -/
theorem assign_random_times_spec_witness :
    (∀ r ∈ (assign_random_times (fun lo _ _ => lo) [⟨"A", 1, 2, 1⟩] 12 17 10).1,
      12 * 60 ≤ r.minutes ∧ r.minutes ≤ 17 * 60) ∧
    (assign_random_times (fun lo _ _ => lo) [⟨"A", 1, 2, 1⟩] 12 17 10).1.Pairwise
      (fun a b => 10 ≤ ((a.minutes : Int) - (b.minutes : Int)).natAbs) ∧
    (assign_random_times (fun lo _ _ => lo) [⟨"A", 1, 2, 1⟩] 12 17 10).1.Pairwise
      (fun a b => a.minutes ≤ b.minutes) :=
  assign_random_times_spec (fun lo _ _ => lo) [⟨"A", 1, 2, 1⟩] 12 17 10
    (fun _ => ⟨Nat.le_refl _, by norm_num⟩)

/-- C2: when the attempt budget is exhausted for some winner (the warning
flag of the `[WARN]` branch is set), the returned assignments are exactly
the winners placed before that point: as a multiset they are a strict
prefix of the input winners, and the function returns normally rather
than raising. -/
theorem assign_random_times_truncates (rand : Nat → Nat → Nat → Nat)
    (winners : List ActivePlayer) (start_hour end_hour min_gap_minutes : Nat)
    (hwarn : (assign_random_times rand winners start_hour end_hour min_gap_minutes).2 = true) :
    ∃ j < winners.length,
      List.Perm
        ((assign_random_times rand winners start_hour end_hour min_gap_minutes).1.map
          fun r => ActivePlayer.mk r.name r.fromLevel r.toLevel r.delta)
        (winners.take j) := by
  by_cases hw : winners.isEmpty
  · unfold assign_random_times at hwarn
    rw [if_pos hw] at hwarn
    cases hwarn
  · rw [assign_random_times_eq rand winners _ _ _ hw] at hwarn ⊢
    obtain ⟨j, hj, hmap, hwiff⟩ := placeLoop_players rand (start_hour * 60)
      (end_hour * 60) min_gap_minutes winners 0 []
    refine ⟨j, hwiff.mp hwarn, ?_⟩
    have hmm : (((placeLoop rand (start_hour * 60) (end_hour * 60) min_gap_minutes
        winners 0 []).1.insertionSort minuteLE).map
        (fun item : Nat × ActivePlayer =>
          ({ name := item.2.name, fromLevel := item.2.fromLevel, toLevel := item.2.toLevel,
             delta := item.2.delta, minutes := item.1, time := fmtTime item.1 } :
            TimedPlayer))).map
        (fun r => ActivePlayer.mk r.name r.fromLevel r.toLevel r.delta) =
        ((placeLoop rand (start_hour * 60) (end_hour * 60) min_gap_minutes
          winners 0 []).1.insertionSort minuteLE).map Prod.snd := by
      rw [List.map_map]
      rfl
    rw [hmm]
    have hperm := (List.perm_insertionSort minuteLE
      (placeLoop rand (start_hour * 60) (end_hour * 60) min_gap_minutes
        winners 0 []).1).map Prod.snd
    rw [hmap] at hperm
    simpa using hperm

set_option maxRecDepth 100000 in
/-- Witness for C2: a constant draw makes the second winner impossible to
place, so the budget is exhausted and a strict prefix is returned. -/
theorem assign_random_times_truncates_witness :
    ∃ j < 2,
      List.Perm
        ((assign_random_times (fun lo _ _ => lo) [⟨"A", 1, 2, 1⟩, ⟨"B", 1, 3, 2⟩]
          12 17 10).1.map fun r => ActivePlayer.mk r.name r.fromLevel r.toLevel r.delta)
        (([⟨"A", 1, 2, 1⟩, ⟨"B", 1, 3, 2⟩] : List ActivePlayer).take j) :=
  assign_random_times_truncates (fun lo _ _ => lo) [⟨"A", 1, 2, 1⟩, ⟨"B", 1, 3, 2⟩]
    12 17 10 (by decide)

/-- C10 counterexample: with a non-empty winners list and the window
running from 17:00 back to 12:00, `random.randint(1020, 720)` raises
ValueError on the very first draw, so the call yields no assignments at
all; this refutes the claim for arbitrary window parameters. -/
theorem assign_random_times_empty_window_raises :
    assign_random_times_run (fun lo _ _ => lo) [⟨"A", 1, 2, 1⟩] 17 12 10 = none ∧
    ([⟨"A", 1, 2, 1⟩] : List ActivePlayer) ≠ [] := by decide

/-- C10 (amended): for a non-empty winners list and a non-empty window
(startMinute at most endMinute, the condition under which randint does
not raise), assign_random_times returns normally and yields at least one
assignment: the first winner is always placed, because the gap test over
no accepted times holds vacuously on the first draw. -/
theorem assign_random_times_nonempty (rand : Nat → Nat → Nat → Nat)
    (winners : List ActivePlayer) (start_hour end_hour min_gap_minutes : Nat)
    (h : winners ≠ []) (hwin : start_hour * 60 ≤ end_hour * 60) :
    ∃ res, assign_random_times_run rand winners start_hour end_hour min_gap_minutes =
        some res ∧ res.1 ≠ [] := by
  refine ⟨assign_random_times rand winners start_hour end_hour min_gap_minutes, ?_, ?_⟩
  · unfold assign_random_times_run
    rw [if_neg (by simpa using h), if_neg (by omega)]
  · rw [assign_random_times_eq rand winners _ _ _ (by simpa using h)]
    intro hcon
    have hlen := congrArg List.length hcon
    rw [List.length_map, List.length_insertionSort] at hlen
    cases winners with
    | nil => exact h rfl
    | cons p rest =>
      have hstep : placeLoop rand (start_hour * 60) (end_hour * 60) min_gap_minutes
          (p :: rest) 0 [] =
          placeLoop rand (start_hour * 60) (end_hour * 60) min_gap_minutes rest 1
            [(rand (start_hour * 60) (end_hour * 60) 0, p)] := rfl
      rw [hstep] at hlen
      have hmono := placeLoop_length_mono rand (start_hour * 60) (end_hour * 60)
        min_gap_minutes rest 1 [(rand (start_hour * 60) (end_hour * 60) 0, p)]
      rw [hlen] at hmono
      simp at hmono

/-- Witness for C10 on one winner in the default window. -/
theorem assign_random_times_nonempty_witness :
    ∃ res, assign_random_times_run (fun lo _ _ => lo) [⟨"A", 1, 2, 1⟩] 12 17 10 =
        some res ∧ res.1 ≠ [] :=
  assign_random_times_nonempty (fun lo _ _ => lo) [⟨"A", 1, 2, 1⟩] 12 17 10
    (by decide) (by decide)

lemma dispatchLoop_length (sendDur : Nat → Nat) (ok : Nat → Bool) :
    ∀ (l : List TimedPlayer) (i : Nat) (now : Int),
      (dispatchLoop sendDur ok l i now).length = l.length := by
  intro l
  induction l with
  | nil => intro i now; rfl
  | cons a rest ih =>
    intro i now
    simp only [dispatchLoop, List.length_cons]
    rw [ih]

lemma dispatchLoop_names (sendDur : Nat → Nat) (ok : Nat → Bool) :
    ∀ (l : List TimedPlayer) (i : Nat) (now : Int),
      ∀ s ∈ dispatchLoop sendDur ok l i now, ∃ a ∈ l, s.name = a.name := by
  intro l
  induction l with
  | nil => intro i now s hs; cases hs
  | cons a rest ih =>
    intro i now s hs
    rcases List.mem_cons.mp hs with hs | hs
    · exact ⟨a, List.mem_cons_self _ _, by rw [hs]⟩
    · rcases ih _ _ s hs with ⟨b, hb, hname⟩
      exact ⟨b, List.mem_cons_of_mem _ hb, hname⟩

lemma dispatchLoop_congr (sendDur : Nat → Nat) (ok ok2 : Nat → Bool) (j : Nat)
    (hok : ∀ m, m ≠ j → ok m = ok2 m) :
    ∀ (l : List TimedPlayer) (i : Nat) (now : Int) (idx : Nat), i + idx ≠ j →
      (dispatchLoop sendDur ok l i now)[idx]? =
        (dispatchLoop sendDur ok2 l i now)[idx]? := by
  intro l
  induction l with
  | nil => intro i now idx _; rfl
  | cons a rest ih =>
    intro i now idx hidx
    cases idx with
    | zero =>
      have hoki : ok i = ok2 i := hok i (by omega)
      simp [dispatchLoop, hoki]
    | succ idx =>
      simp only [dispatchLoop, List.getElem?_cons_succ]
      exact ih (i + 1) _ idx (by omega)

lemma dispatchLoop_sched (sendDur : Nat → Nat) (ok : Nat → Bool) :
    ∀ (l : List TimedPlayer) (i : Nat) (now : Int),
      (dispatchLoop sendDur ok l i now).map (fun s => s.schedSec) =
        l.map fun a => 60 * (timeToMinutes a.time : Int) := by
  intro l
  induction l with
  | nil => intro i now; rfl
  | cons a rest ih =>
    intro i now
    simp only [dispatchLoop, List.map_cons]
    rw [ih]

lemma dispatchLoop_waited (sendDur : Nat → Nat) (ok : Nat → Bool) :
    ∀ (l : List TimedPlayer) (i : Nat) (now : Int),
      ∀ s ∈ dispatchLoop sendDur ok l i now,
        s.waited = decide (0 < s.schedSec - s.nowBefore) := by
  intro l
  induction l with
  | nil => intro i now s hs; cases hs
  | cons a rest ih =>
    intro i now s hs
    rcases List.mem_cons.mp hs with hs | hs
    · rw [hs]
    · exact ih _ _ s hs

/-- C6: the success set of the dispatch loop only contains names of the
input assignments; every assignment gets exactly one delivery attempt
(the trace has one step per assignment, so no failure aborts the batch);
and changing the delivery outcome of one attempt changes no other step of
the run. -/
theorem send_with_sleep_spec (sendDur : Nat → Nat) (ok : Nat → Bool)
    (startNow : Int) (assignments : List TimedPlayer) :
    (∀ n ∈ sentSuccessfully (send_with_sleep sendDur ok startNow assignments),
      n ∈ assignments.map fun a => a.name) ∧
    (send_with_sleep sendDur ok startNow assignments).length = assignments.length ∧
    (∀ (ok2 : Nat → Bool) (j : Nat), (∀ m, m ≠ j → ok m = ok2 m) →
      ∀ idx, idx ≠ j →
        (send_with_sleep sendDur ok startNow assignments)[idx]? =
          (send_with_sleep sendDur ok2 startNow assignments)[idx]?) := by
  unfold send_with_sleep
  by_cases h : assignments.isEmpty
  · rw [List.isEmpty_iff] at h
    subst h
    exact ⟨by simp [sentSuccessfully], rfl, fun ok2 j hok idx hidx => rfl⟩
  · rw [if_neg h]
    refine ⟨?_, ?_, ?_⟩
    · intro n hn
      unfold sentSuccessfully at hn
      rcases List.mem_map.mp hn with ⟨s, hs, rfl⟩
      have hs2 : s ∈ dispatchLoop sendDur ok (assignments.insertionSort schedLE) 0 startNow :=
        (List.mem_filter.mp hs).1
      rcases dispatchLoop_names sendDur ok _ _ _ s hs2 with ⟨a, ha, hname⟩
      rw [List.mem_insertionSort] at ha
      rw [hname]
      exact List.mem_map_of_mem _ ha
    · rw [dispatchLoop_length, List.length_insertionSort]
    · intro ok2 j hok idx hidx
      rw [if_neg h]
      exact dispatchLoop_congr sendDur ok ok2 j hok _ 0 startNow idx (by omega)

/-- Witness for C6 with one failing recipient among two. -/
theorem send_with_sleep_spec_witness :
    ∀ n ∈ sentSuccessfully (send_with_sleep (fun _ => 1) (fun i => i == 0) 0
      [⟨"A", 1, 2, 1, 750, "12:30"⟩, ⟨"B", 1, 3, 2, 730, "12:10"⟩]),
      n ∈ ([⟨"A", 1, 2, 1, 750, "12:30"⟩, ⟨"B", 1, 3, 2, 730, "12:10"⟩] :
        List TimedPlayer).map fun a => a.name :=
  (send_with_sleep_spec (fun _ => 1) (fun i => i == 0) 0
    [⟨"A", 1, 2, 1, 750, "12:30"⟩, ⟨"B", 1, 3, 2, 730, "12:10"⟩]).1

/-- C7: delivery attempts happen in non-decreasing order of scheduled
instant (the input is re-sorted defensively), and an attempt waits
exactly when the delay to its scheduled instant is positive, proceeding
immediately when the scheduled time has passed. -/
theorem send_with_sleep_order (sendDur : Nat → Nat) (ok : Nat → Bool)
    (startNow : Int) (assignments : List TimedPlayer) :
    (send_with_sleep sendDur ok startNow assignments).Pairwise
      (fun s t => s.schedSec ≤ t.schedSec) ∧
    (∀ s ∈ send_with_sleep sendDur ok startNow assignments,
      (s.waited = true ↔ 0 < s.schedSec - s.nowBefore)) := by
  unfold send_with_sleep
  by_cases h : assignments.isEmpty
  · rw [if_pos h]
    exact ⟨List.Pairwise.nil, by simp⟩
  · rw [if_neg h]
    constructor
    · have hs : (assignments.insertionSort schedLE).Pairwise schedLE :=
        List.sorted_insertionSort schedLE assignments
      have hmap := dispatchLoop_sched sendDur ok (assignments.insertionSort schedLE) 0 startNow
      have hpw : ((dispatchLoop sendDur ok (assignments.insertionSort schedLE) 0
          startNow).map (fun s => s.schedSec)).Pairwise (fun x y : Int => x ≤ y) := by
        rw [hmap]
        refine List.pairwise_map.mpr (hs.imp ?_)
        intro a b hab
        have h2 : timeToMinutes a.time ≤ timeToMinutes b.time := hab
        omega
      exact List.pairwise_map.mp hpw
    · intro s hs
      rw [dispatchLoop_waited sendDur ok _ _ _ s hs]
      simp

/-- Witness for C7 with an out-of-order input and one already-passed
slot. -/
theorem send_with_sleep_order_witness :
    (send_with_sleep (fun _ => 1) (fun _ => true) 45000
      [⟨"A", 1, 2, 1, 750, "12:30"⟩, ⟨"B", 1, 3, 2, 730, "12:10"⟩]).Pairwise
      (fun s t => s.schedSec ≤ t.schedSec) ∧
    (∀ s ∈ send_with_sleep (fun _ => 1) (fun _ => true) 45000
        [⟨"A", 1, 2, 1, 750, "12:30"⟩, ⟨"B", 1, 3, 2, 730, "12:10"⟩],
      (s.waited = true ↔ 0 < s.schedSec - s.nowBefore)) :=
  send_with_sleep_order (fun _ => 1) (fun _ => true) 45000
    [⟨"A", 1, 2, 1, 750, "12:30"⟩, ⟨"B", 1, 3, 2, 730, "12:10"⟩]

/-- C9: fetch_levels fails exactly when the fetcher binary is missing,
exits non-zero, or yields undecodable output; and when it fails, the
spec-modelled run aborts with the persisted state (snapshot and
blacklist) unchanged. -/
theorem fetch_levels_spec (env : FetchEnv) :
    ((∃ e, fetch_levels env = Except.error e) ↔
      (env.binaryExists = false ∨ env.exitCode ≠ 0 ∨ env.stdoutJson = none)) ∧
    (∀ (randSample : Nat → Nat) (randSlot : Nat → Nat → Nat → Nat)
        (sendDur : Nat → Nat) (ok : Nat → Bool) (startNow : Int) (store : Store),
      (∃ e, fetch_levels env = Except.error e) →
      (runPipeline env randSample randSlot sendDur ok startNow store).1 = store ∧
      (runPipeline env randSample randSlot sendDur ok startNow store).2 = true) := by
  constructor
  · cases env with
    | mk b ec out =>
      cases b <;> cases out <;> by_cases hec : ec = 0 <;>
        simp [fetch_levels, hec]
  · intro randSample randSlot sendDur ok startNow store he
    obtain ⟨e, he⟩ := he
    unfold runPipeline
    rw [he]
    exact ⟨rfl, rfl⟩

/-- Witness for C9 on a non-zero exit status. -/
theorem fetch_levels_spec_witness :
    (runPipeline ⟨true, 1, some []⟩ (fun _ => 0) (fun lo _ _ => lo) (fun _ => 0)
      (fun _ => true) 0 ⟨none, []⟩).1 = ⟨none, []⟩ ∧
    (runPipeline ⟨true, 1, some []⟩ (fun _ => 0) (fun lo _ _ => lo) (fun _ => 0)
      (fun _ => true) 0 ⟨none, []⟩).2 = true :=
  (fetch_levels_spec ⟨true, 1, some []⟩).2 (fun _ => 0) (fun lo _ _ => lo) (fun _ => 0)
    (fun _ => true) 0 ⟨none, []⟩ ⟨"nonzero exit", rfl⟩
